import Mathlib

/-!
Verification of `tools/convert_msmt_lists.py`, a converter that relocates
files referenced in MSMT17-style list files into the standard
`bounding_box_train` / `query` / `bounding_box_test` layout.

The filesystem is modelled shallowly as an association list from paths
(lists of name components) to entries (regular file with textual content,
or directory).  Pure string manipulation from the script
(`str.strip`, `str.split`, `pathlib` name handling) is embedded as
structurally recursive functions on `List Char`, and the two operations of
the script, `find_file` and `process`, are translated directly.
-/

set_option autoImplicit false

namespace Msmt

/-- A filesystem path, as its list of name components below the filesystem
root (the model of a `pathlib.Path`). -/
abbrev FPath := List String

/-- A filesystem entry: a regular file with its textual content, or a
directory. -/
inductive Entry where
  | file (content : String)
  | dir
deriving DecidableEq, Repr

/-- The filesystem: the list of existing paths with their entries, in
traversal order.  Lookup takes the first entry of a path; the list order is
the model of the (unspecified) directory-scan order that `Path.rglob`
follows. -/
structure FS where
  entries : List (FPath × Entry)
deriving DecidableEq, Repr

/-- Entry stored at path `p`, if `p` exists (first match in the entry
list). -/
def FS.lookup (fs : FS) (p : FPath) : Option Entry :=
  (fs.entries.find? (fun e => decide (e.1 = p))).map (fun e => e.2)

/-- Model of `Path.exists()`. -/
def FS.pathExists (fs : FS) (p : FPath) : Bool :=
  (fs.lookup p).isSome

/-- Model of `Path.is_file()`. -/
def FS.isFile (fs : FS) (p : FPath) : Bool :=
  match fs.lookup p with
  | some (Entry.file _) => true
  | _ => false

/-- Content of the regular file at `p` (the model of opening and reading
it; unused on non-files, where the script would raise). -/
def FS.readContent (fs : FS) (p : FPath) : String :=
  match fs.lookup p with
  | some (Entry.file c) => c
  | _ => ""

/-- Model of `root.rglob(basename)`: every existing path strictly below
`root` whose final component is `basename`, in traversal order. -/
def FS.rglobMatches (fs : FS) (root : FPath) (basename : String) : List FPath :=
  (fs.entries.map (fun e => e.1)).filter
    (fun p => root.isPrefixOf p && !(p == root) && (p.getLastD "" == basename))

/-! ### String manipulation helpers (embedding of the Python string ops) -/

/-- Split a character list at every occurrence of `sep`
(the model of `str.split(sep)` for a one-character separator: empty
segments are kept, and the empty string yields one empty segment). -/
def splitList (sep : Char) : List Char → List (List Char)
  | [] => [[]]
  | c :: cs =>
    match splitList sep cs with
    | [] => [[]]
    | t :: ts => if c = sep then [] :: t :: ts else (c :: t) :: ts

/-- Model of `str.strip()`: remove leading and trailing whitespace. -/
def trimList (cs : List Char) : List Char :=
  ((cs.dropWhile Char.isWhitespace).reverse.dropWhile Char.isWhitespace).reverse

/-- Model of `ln.split(' ')[0]`: the characters before the first space
(the first space-delimited token of a line with no leading space). -/
def lineFilename (cs : List Char) : List Char :=
  cs.takeWhile (fun c => c ≠ ' ')

/-- Model of `[ln.strip() for ln in f if ln.strip()]`: the lines of the
file content, stripped, with blank lines removed. -/
def stripLines (content : List Char) : List (List Char) :=
  ((splitList '\n' content).map trimList).filter (fun l => l ≠ [])

/-- The filenames a list file's content refers to: the first
space-delimited token of each non-blank line. -/
def listNames (content : List Char) : List String :=
  (stripLines content).map (fun l => String.mk (lineFilename l))

/-- Model of appending a relative path string to a `Path` with `/`:
the slash-separated non-empty components. -/
def splitPath (s : String) : FPath :=
  ((splitList '/' s.data).filter (fun c => c ≠ [])).map (fun cs => String.mk cs)

/-- Model of `Path(fname).name`: the final component. -/
def basenameOf (s : String) : String :=
  (splitPath s).getLastD ""

/-! ### `find_file` -/

/-- Embedding of `find_file(root, fname)`: first try the exact path
`root / fname`; if it does not exist, search recursively under `root` for
the first regular file named `Path(fname).name`. -/
def find_file (fs : FS) (root : FPath) (fname : String) : Option FPath :=
  let cand := root ++ splitPath fname
  if fs.pathExists cand then some cand
  else (fs.rglobMatches root (basenameOf fname)).find? (fun p => fs.isFile p)

/-! ### `process` -/

/-- The `LIST_MAP` table, in its (insertion-order preserving) iteration
order: list file name to destination subdirectory. -/
def LIST_MAP : List (String × String) :=
  [("list_train.txt", "bounding_box_train"),
   ("list_val.txt", "bounding_box_train"),
   ("list_query.txt", "query"),
   ("list_gallery.txt", "bounding_box_test")]

/-- Render a path for a console message. -/
def showPath (p : FPath) : String :=
  String.intercalate "/" p

/-- The planning state threaded through list processing: the missing-file
count, the planned `(source, destination)` actions, and the console log. -/
abbrev PlanState := Nat × List (FPath × FPath) × List String

/-- Embedding of the inner loop of `process` over the filenames of one
list file: each filename is resolved with `find_file`; a failure is logged
and counted, a success appends the action
`(src, dest_dir / Path(fname).name)`. -/
def planNames (fs : FS) (root : FPath) (destSub : String)
    (names : List String) (st : PlanState) : PlanState :=
  names.foldl (fun st n =>
    match find_file fs root n with
    | none => (st.1 + 1, st.2.1, st.2.2 ++ ["  MISSING: " ++ n])
    | some src =>
        (st.1, st.2.1 ++ [(src, root ++ [destSub, basenameOf n])], st.2.2)) st

/-- Embedding of one iteration of the `for list_name, dest_sub in
LIST_MAP.items()` loop: a missing list file is skipped with a message,
otherwise the file is read and its filenames are planned. -/
def processList (fs : FS) (root : FPath) (e : String × String)
    (st : PlanState) : PlanState :=
  let listPath := root ++ [e.1]
  if fs.pathExists listPath then
    planNames fs root e.2 (listNames (fs.readContent listPath).data)
      (st.1, st.2.1, st.2.2 ++ ["Processing " ++ e.1 ++ " -> " ++ e.2])
  else
    (st.1, st.2.1, st.2.2 ++ ["  Skipping missing list: " ++ showPath listPath])

/-- The whole planning phase of `process`: fold `processList` over
`LIST_MAP`, starting from zero missing files, no actions and no log. -/
def buildPlan (fs : FS) (root : FPath) : PlanState :=
  LIST_MAP.foldl (fun st e => processList fs root e st) (0, [], [])

/-- Model of `dst.parent.mkdir(parents=True, exist_ok=True)` applied to a
path `p`: every prefix of `p` that does not yet exist is created as a
directory; existing entries are untouched. -/
def mkdirParents (fs : FS) (p : FPath) : FS :=
  ⟨fs.entries ++
    (((List.range (p.length + 1)).map (fun n => p.take n)).filter
      (fun q => fs.lookup q = none)).map (fun q => (q, Entry.dir))⟩

/-- Model of `shutil.copy2(src, dst)`: the destination now holds a regular
file with the source's content. -/
def copyFile (fs : FS) (src dst : FPath) : FS :=
  ⟨(dst, Entry.file (fs.readContent src)) :: fs.entries⟩

/-- One iteration of the copy loop of `process`: create the destination's
parent directories, then copy only if the destination does not already
exist. -/
def execStep (fs : FS) (a : FPath × FPath) : FS :=
  let fs1 := mkdirParents fs a.2.dropLast
  if fs1.pathExists a.2 then fs1 else copyFile fs1 a.1 a.2

/-- Embedding of the copy loop of `process` over the whole plan. -/
def execActions (fs : FS) (actions : List (FPath × FPath)) : FS :=
  actions.foldl execStep fs

/-- The outcome of a run of `process`: the console log, the resulting
filesystem, and the return code. -/
structure RunResult where
  log : List String
  fs : FS
  rc : Nat
deriving DecidableEq, Repr

/-- Embedding of `process(root, execute)`. -/
def process (fs : FS) (root : FPath) (execute : Bool) : RunResult :=
  if fs.pathExists root then
    let plan := buildPlan fs root
    let missingLog : List String :=
      if plan.1 ≠ 0 then
        ["Total missing files referenced in lists: " ++ toString plan.1,
         "Fix missing files before executing. Dry-run shows what would be copied."]
      else []
    if plan.2.1 = [] then
      { log := plan.2.2 ++ missingLog ++ ["No files to copy."], fs := fs, rc := 0 }
    else
      let preview := (plan.2.1.take 20).map
        (fun a => "  " ++ showPath a.1 ++ " -> " ++ showPath a.2)
      let more : List String :=
        if plan.2.1.length > 20 then
          ["  ... and " ++ toString (plan.2.1.length - 20) ++ " more"]
        else []
      let sumLog := plan.2.2 ++ missingLog ++
        ["Planned copy operations: " ++ toString plan.2.1.length] ++ preview ++ more
      if execute then
        { log := sumLog ++ ["Copy complete."],
          fs := execActions fs plan.2.1, rc := 0 }
      else
        { log := sumLog ++
            ["Dry-run complete. Rerun with --execute to perform copies."],
          fs := fs, rc := 0 }
  else
    { log := ["Dataset root not found: " ++ showPath root], fs := fs, rc := 1 }

/-- The referenced `(filename, destination subdirectory)` pairs that a run
over the list table `entries` resolves, in processing order: nothing for an
absent list file, otherwise one pair per name in the list. -/
def refsOf (fs : FS) (root : FPath) (entries : List (String × String)) :
    List (String × String) :=
  entries.foldr (fun e acc =>
    (if fs.pathExists (root ++ [e.1]) then
      (listNames (fs.readContent (root ++ [e.1])).data).map (fun n => (n, e.2))
    else []) ++ acc) []

/-- All `(filename, destination subdirectory)` pairs referenced by the
four recognized list files. -/
def referenced (fs : FS) (root : FPath) : List (String × String) :=
  refsOf fs root LIST_MAP

/-- The planned action a single referenced pair contributes, if its
filename resolves. -/
def planOf (fs : FS) (root : FPath) (e : String × String) :
    Option (FPath × FPath) :=
  (find_file fs root e.1).map (fun src => (src, root ++ [e.2, basenameOf e.1]))

/-- The console messages a run over the list table `entries` produces
during planning, in order: a skip message for an absent list file, and
otherwise the processing banner followed by one MISSING message per
unresolvable filename. -/
def logsOf (fs : FS) (root : FPath) (entries : List (String × String)) :
    List String :=
  entries.foldr (fun e acc =>
    (if fs.pathExists (root ++ [e.1]) then
      ("Processing " ++ e.1 ++ " -> " ++ e.2) ::
        (listNames (fs.readContent (root ++ [e.1])).data).filterMap
          (fun n => if (find_file fs root n).isNone then
            some ("  MISSING: " ++ n) else none)
    else ["  Skipping missing list: " ++ showPath (root ++ [e.1])]) ++ acc) []

/-- Follows the spec's words, for comparison with `lineFilename`:
"for each line extract the first whitespace-delimited token as the
filename", i.e. the first maximal run of non-whitespace characters. -/
def firstTokenSpec (cs : List Char) : List Char :=
  (cs.dropWhile Char.isWhitespace).takeWhile (fun c => !c.isWhitespace)

/-! ### Concrete example filesystems -/

/-- A root `r` holding `list_train.txt` referencing `a.jpg`, found at
`r/sub/a.jpg`. -/
def fsDemo : FS :=
  ⟨[(["r"], Entry.dir),
    (["r", "list_train.txt"], Entry.file "a.jpg\n"),
    (["r", "sub"], Entry.dir),
    (["r", "sub", "a.jpg"], Entry.file "JPEG")]⟩

/-- Like `fsDemo`, but the destination `r/bounding_box_train/a.jpg`
already exists with content `OLD` while the source holds `NEW`. -/
def fsPre : FS :=
  ⟨[(["r"], Entry.dir),
    (["r", "list_train.txt"], Entry.file "a.jpg\n"),
    (["r", "sub"], Entry.dir),
    (["r", "sub", "a.jpg"], Entry.file "NEW"),
    (["r", "bounding_box_train"], Entry.dir),
    (["r", "bounding_box_train", "a.jpg"], Entry.file "OLD")]⟩

/-- A root whose `list_train.txt` references the absent `a.jpg` twice. -/
def fsDup : FS :=
  ⟨[(["r"], Entry.dir),
    (["r", "list_train.txt"], Entry.file "a.jpg\na.jpg")]⟩

/-- A root whose `list_train.txt` references `d`, which exists at the
exact path `r/d` but is a directory. -/
def fsDirSrc : FS :=
  ⟨[(["r"], Entry.dir),
    (["r", "list_train.txt"], Entry.file "d\n"),
    (["r", "d"], Entry.dir)]⟩

/-! ### Preservation lemmas about the filesystem operations -/

theorem find?_append_left {α : Type} (l1 l2 : List α) (f : α → Bool) (a : α)
    (h : l1.find? f = some a) : (l1 ++ l2).find? f = some a := by
  rw [List.find?_append, h]
  rfl

theorem lookup_entries_append (l1 l2 : List (FPath × Entry)) (p : FPath)
    (e : Entry) (h : FS.lookup ⟨l1⟩ p = some e) :
    FS.lookup ⟨l1 ++ l2⟩ p = some e := by
  unfold FS.lookup at h ⊢
  cases hf : l1.find? (fun y => decide (y.1 = p)) with
  | none => rw [hf] at h; simp at h
  | some x =>
      rw [hf] at h
      rw [show (FS.mk (l1 ++ l2)).entries = l1 ++ l2 from rfl,
        find?_append_left l1 l2 _ x hf]
      exact h

theorem lookup_mkdirParents_of_some (fs : FS) (q p : FPath) (e : Entry)
    (h : fs.lookup p = some e) : (mkdirParents fs q).lookup p = some e :=
  lookup_entries_append fs.entries _ p e h

theorem lookup_copyFile_of_ne (fs : FS) (src dst p : FPath) (hne : p ≠ dst) :
    (copyFile fs src dst).lookup p = fs.lookup p := by
  unfold copyFile FS.lookup
  rw [show (FS.mk ((dst, Entry.file (fs.readContent src)) :: fs.entries)).entries
      = (dst, Entry.file (fs.readContent src)) :: fs.entries from rfl]
  rw [List.find?_cons_of_neg]
  simp only [decide_eq_true_eq]
  exact fun hdp => hne hdp.symm

theorem lookup_execStep_of_some (fs : FS) (a : FPath × FPath) (p : FPath)
    (e : Entry) (h : fs.lookup p = some e) :
    (execStep fs a).lookup p = some e := by
  unfold execStep
  have h1 : (mkdirParents fs a.2.dropLast).lookup p = some e :=
    lookup_mkdirParents_of_some fs _ p e h
  by_cases hex : (mkdirParents fs a.2.dropLast).pathExists a.2
  · simp only [hex, if_true]
    exact h1
  · simp only [hex, if_false, Bool.false_eq_true]
    have hne : p ≠ a.2 := by
      intro hpe
      subst hpe
      unfold FS.pathExists at hex
      rw [h1] at hex
      simp at hex
    rw [lookup_copyFile_of_ne _ _ _ _ hne]
    exact h1

theorem lookup_execActions_of_some (p : FPath) (e : Entry) :
    ∀ (actions : List (FPath × FPath)) (fs : FS), fs.lookup p = some e →
      (execActions fs actions).lookup p = some e := by
  intro actions
  induction actions with
  | nil => intro fs h; exact h
  | cons a as ih =>
      intro fs h
      exact ih (execStep fs a) (lookup_execStep_of_some fs a p e h)

theorem mkdirParents_lookup_isSome (fs : FS) (p q : FPath)
    (hq : q ∈ (List.range (p.length + 1)).map (fun n => p.take n)) :
    (mkdirParents fs p).lookup q ≠ none := by
  cases h : fs.lookup q with
  | some e =>
      rw [lookup_mkdirParents_of_some fs p q e h]
      exact Option.noConfusion
  | none =>
      unfold mkdirParents FS.lookup
      intro hcon
      rw [Option.map_eq_none'] at hcon
      rw [show (FS.mk (fs.entries ++ _)).entries = fs.entries ++ _ from rfl,
        List.find?_append] at hcon
      rw [Option.or_eq_none] at hcon
      have hmem : (q, Entry.dir) ∈
          ((((List.range (p.length + 1)).map (fun n => p.take n)).filter
            (fun r => fs.lookup r = none)).map (fun r => (r, Entry.dir))) := by
        apply List.mem_map_of_mem
        rw [List.mem_filter]
        exact ⟨hq, by simp [h]⟩
      have := List.find?_eq_none.mp hcon.2 _ hmem
      simp at this

theorem mkdirParents_idem (fs : FS) (p : FPath) :
    mkdirParents (mkdirParents fs p) p = mkdirParents fs p := by
  have hfil : (((List.range (p.length + 1)).map (fun n => p.take n)).filter
      (fun q => (mkdirParents fs p).lookup q = none)) = [] := by
    rw [List.filter_eq_nil_iff]
    intro q hq
    simp only [decide_eq_true_eq]
    exact mkdirParents_lookup_isSome fs p q hq
  have hdef : mkdirParents (mkdirParents fs p) p =
      ⟨(mkdirParents fs p).entries ++
        (((List.range (p.length + 1)).map (fun n => p.take n)).filter
          (fun q => (mkdirParents fs p).lookup q = none)).map
            (fun q => (q, Entry.dir))⟩ := rfl
  rw [hdef, hfil]
  simp only [List.map_nil, List.append_nil]

/-! ### Structure of `process` -/

theorem process_fs_of_not_execute (fs : FS) (root : FPath) :
    (process fs root false).fs = fs := by
  unfold process
  simp only [apply_ite RunResult.fs, Bool.false_eq_true, if_false, ite_self]

theorem process_rc_eq (fs : FS) (root : FPath) (ex : Bool) :
    (process fs root ex).rc = if fs.pathExists root then 0 else 1 := by
  unfold process
  simp only [apply_ite RunResult.rc, ite_self]

/-! ### Characterization of the planning phase -/

theorem planNames_eq (fs : FS) (root : FPath) (sub : String) :
    ∀ (names : List String) (st : PlanState),
      planNames fs root sub names st =
        (st.1 + names.countP (fun n => (find_file fs root n).isNone),
         st.2.1 ++ names.filterMap (fun n => planOf fs root (n, sub)),
         st.2.2 ++ names.filterMap (fun n =>
           if (find_file fs root n).isNone then some ("  MISSING: " ++ n)
           else none))
  | [], st => by simp [planNames]
  | n :: ns, st => by
      have hstep : planNames fs root sub (n :: ns) st =
          planNames fs root sub ns
            (match find_file fs root n with
             | none => (st.1 + 1, st.2.1, st.2.2 ++ ["  MISSING: " ++ n])
             | some src =>
                 (st.1, st.2.1 ++ [(src, root ++ [sub, basenameOf n])],
                  st.2.2)) := rfl
      rw [hstep, planNames_eq fs root sub ns]
      cases hf : find_file fs root n with
      | none =>
          simp [hf, planOf, List.countP_cons, List.filterMap_cons,
            Prod.ext_iff, List.append_assoc]
          omega
      | some src =>
          simp [hf, planOf, List.countP_cons, List.filterMap_cons,
            Prod.ext_iff, List.append_assoc]

theorem foldl_processList_eq (fs : FS) (root : FPath) :
    ∀ (entries : List (String × String)) (st : PlanState),
      entries.foldl (fun st e => processList fs root e st) st =
        (st.1 + (refsOf fs root entries).countP
           (fun r => (find_file fs root r.1).isNone),
         st.2.1 ++ (refsOf fs root entries).filterMap (planOf fs root),
         st.2.2 ++ logsOf fs root entries)
  | [], st => by simp [refsOf, logsOf]
  | e :: es, st => by
      rw [List.foldl_cons, foldl_processList_eq fs root es]
      have hrefs : refsOf fs root (e :: es) =
          (if fs.pathExists (root ++ [e.1]) then
            (listNames (fs.readContent (root ++ [e.1])).data).map
              (fun n => (n, e.2))
          else []) ++ refsOf fs root es := rfl
      have hlogs : logsOf fs root (e :: es) =
          (if fs.pathExists (root ++ [e.1]) then
            ("Processing " ++ e.1 ++ " -> " ++ e.2) ::
              (listNames (fs.readContent (root ++ [e.1])).data).filterMap
                (fun n => if (find_file fs root n).isNone then
                  some ("  MISSING: " ++ n) else none)
          else ["  Skipping missing list: " ++ showPath (root ++ [e.1])]) ++
            logsOf fs root es := rfl
      rw [hrefs, hlogs]
      unfold processList
      by_cases h : fs.pathExists (root ++ [e.1])
      · simp only [h, if_true]
        rw [planNames_eq]
        simp [List.countP_append, List.filterMap_append, List.countP_map,
          List.filterMap_map, Function.comp_def, Prod.ext_iff,
          List.append_assoc]
        omega
      · simp [h, Prod.ext_iff, List.append_assoc]

theorem buildPlan_eq (fs : FS) (root : FPath) :
    buildPlan fs root =
      ((referenced fs root).countP (fun r => (find_file fs root r.1).isNone),
       (referenced fs root).filterMap (planOf fs root),
       logsOf fs root LIST_MAP) := by
  unfold buildPlan referenced
  rw [foldl_processList_eq]
  simp

theorem planOf_eq_some (fs : FS) (root : FPath) (e : String × String)
    (s d : FPath) :
    planOf fs root e = some (s, d) ↔
      find_file fs root e.1 = some s ∧ d = root ++ [e.2, basenameOf e.1] := by
  unfold planOf
  cases hf : find_file fs root e.1 with
  | none => simp
  | some src =>
      simp only [Option.map_some', Option.some.injEq, Prod.mk.injEq,
        Option.some.injEq]
      constructor
      · rintro ⟨h1, h2⟩; exact ⟨by rw [h1], h2.symm⟩
      · rintro ⟨h1, h2⟩
        cases h1
        exact ⟨rfl, h2.symm⟩

theorem mem_buildPlan_actions (fs : FS) (root : FPath) (a : FPath × FPath) :
    a ∈ (buildPlan fs root).2.1 ↔
      ∃ e, e ∈ referenced fs root ∧ planOf fs root e = some a := by
  rw [buildPlan_eq]
  simp [List.mem_filterMap]

theorem missing_msg_mem_logsOf (fs : FS) (root : FPath) :
    ∀ (entries : List (String × String)) (e : String × String),
      e ∈ refsOf fs root entries → (find_file fs root e.1).isNone = true →
      ("  MISSING: " ++ e.1) ∈ logsOf fs root entries
  | [], e, h, _ => by simp [refsOf] at h
  | en :: ens, e, h, hn => by
      have hrefs : refsOf fs root (en :: ens) =
          (if fs.pathExists (root ++ [en.1]) then
            (listNames (fs.readContent (root ++ [en.1])).data).map
              (fun n => (n, en.2))
          else []) ++ refsOf fs root ens := rfl
      have hlogs : logsOf fs root (en :: ens) =
          (if fs.pathExists (root ++ [en.1]) then
            ("Processing " ++ en.1 ++ " -> " ++ en.2) ::
              (listNames (fs.readContent (root ++ [en.1])).data).filterMap
                (fun n => if (find_file fs root n).isNone then
                  some ("  MISSING: " ++ n) else none)
          else ["  Skipping missing list: " ++ showPath (root ++ [en.1])]) ++
            logsOf fs root ens := rfl
      rw [hrefs] at h
      rw [hlogs]
      rcases List.mem_append.mp h with h1 | h2
      · by_cases hex : fs.pathExists (root ++ [en.1])
        · rw [if_pos hex] at h1
          obtain ⟨n, hn2, he⟩ := List.mem_map.mp h1
          apply List.mem_append_left
          rw [if_pos hex]
          apply List.mem_cons_of_mem
          apply List.mem_filterMap.mpr
          refine ⟨n, hn2, ?_⟩
          subst he
          simp only at hn ⊢
          rw [hn]
          simp
        · rw [if_neg hex] at h1
          simp at h1
      · exact List.mem_append_right _
          (missing_msg_mem_logsOf fs root ens e h2 hn)

theorem skip_msg_mem_logsOf (fs : FS) (root : FPath) :
    ∀ (entries : List (String × String)) (e : String × String),
      e ∈ entries → fs.pathExists (root ++ [e.1]) = false →
      ("  Skipping missing list: " ++ showPath (root ++ [e.1]))
        ∈ logsOf fs root entries
  | [], e, h, _ => by simp at h
  | en :: ens, e, h, hex => by
      have hlogs : logsOf fs root (en :: ens) =
          (if fs.pathExists (root ++ [en.1]) then
            ("Processing " ++ en.1 ++ " -> " ++ en.2) ::
              (listNames (fs.readContent (root ++ [en.1])).data).filterMap
                (fun n => if (find_file fs root n).isNone then
                  some ("  MISSING: " ++ n) else none)
          else ["  Skipping missing list: " ++ showPath (root ++ [en.1])]) ++
            logsOf fs root ens := rfl
      rw [hlogs]
      rcases List.mem_cons.mp h with h1 | h2
      · subst h1
        apply List.mem_append_left
        rw [if_neg (by simp [hex])]
        exact List.mem_singleton.mpr rfl
      · exact List.mem_append_right _
          (skip_msg_mem_logsOf fs root ens e h2 hex)

theorem process_fs_cases (fs : FS) (root : FPath) (ex : Bool) :
    (process fs root ex).fs = fs ∨
      (process fs root ex).fs = execActions fs (buildPlan fs root).2.1 := by
  unfold process
  simp only [apply_ite RunResult.fs]
  repeat' split
  all_goals first | exact Or.inl rfl | exact Or.inr rfl

/-! ### The claims -/

/-- C1: for every filesystem and dataset root, a dry run
(`execute = false`) leaves the filesystem exactly as it was — no directory
and no file is created or modified, regardless of how many actions were
planned — and, when the root exists, the run returns status code 0
(producing only console report lines). -/
theorem C1_dry_run_no_mutation (fs : FS) (root : FPath) :
    (process fs root false).fs = fs ∧
      (fs.pathExists root = true → (process fs root false).rc = 0) := by
  refine ⟨process_fs_of_not_execute fs root, fun h => ?_⟩
  rw [process_rc_eq, if_pos h]

theorem C1_dry_run_no_mutation_w :
    (process fsDemo ["r"] false).fs = fsDemo ∧
      (process fsDemo ["r"] false).rc = 0 :=
  ⟨(C1_dry_run_no_mutation fsDemo ["r"]).1,
   (C1_dry_run_no_mutation fsDemo ["r"]).2 (by decide)⟩

/-- C2: execute mode never overwrites: every path that exists before the
run holds the same entry after the run (in particular a pre-existing
destination file keeps its content); the copy step does nothing beyond
directory creation when the destination already exists (skip-if-exists);
and creating the destination parent directories is idempotent. -/
theorem C2_execute_never_overwrites (fs : FS) (root : FPath) :
    (∀ p e, fs.lookup p = some e →
      ((process fs root true).fs).lookup p = some e) ∧
    (∀ (fs1 : FS) (a : FPath × FPath),
      (mkdirParents fs1 a.2.dropLast).pathExists a.2 = true →
      execStep fs1 a = mkdirParents fs1 a.2.dropLast) ∧
    (∀ (fs1 : FS) (q : FPath),
      mkdirParents (mkdirParents fs1 q) q = mkdirParents fs1 q) := by
  refine ⟨fun p e h => ?_, fun fs1 a hex => ?_,
    fun fs1 q => mkdirParents_idem fs1 q⟩
  · rcases process_fs_cases fs root true with hc | hc
    · rw [hc]; exact h
    · rw [hc]; exact lookup_execActions_of_some p e _ fs h
  · unfold execStep
    rw [if_pos hex]

theorem C2_execute_never_overwrites_w :
    ((process fsPre ["r"] true).fs).lookup ["r", "bounding_box_train", "a.jpg"]
        = some (Entry.file "OLD") ∧
      execStep fsPre (["r", "sub", "a.jpg"], ["r", "bounding_box_train", "a.jpg"])
        = mkdirParents fsPre ["r", "bounding_box_train"] :=
  ⟨(C2_execute_never_overwrites fsPre ["r"]).1 _ _ (by decide),
   (C2_execute_never_overwrites fsPre ["r"]).2.1 fsPre
     (["r", "sub", "a.jpg"], ["r", "bounding_box_train", "a.jpg"]) (by decide)⟩

/-- C3: `find_file` returns the exact path `root / fname` whenever it
exists; otherwise its result is precisely the first regular file named
`basename fname` in the recursive search under `root` (first in traversal
order), and it is `none` when no such regular file exists. -/
theorem C3_find_file_resolution (fs : FS) (root : FPath) (fname : String) :
    (fs.pathExists (root ++ splitPath fname) = true →
      find_file fs root fname = some (root ++ splitPath fname)) ∧
    (fs.pathExists (root ++ splitPath fname) = false →
      ∀ p, (find_file fs root fname = some p ↔
        fs.isFile p = true ∧
        ∃ l1 l2, fs.rglobMatches root (basenameOf fname) = l1 ++ p :: l2 ∧
          ∀ q ∈ l1, fs.isFile q = false)) ∧
    (fs.pathExists (root ++ splitPath fname) = false →
      (∀ p ∈ fs.rglobMatches root (basenameOf fname), fs.isFile p = false) →
      find_file fs root fname = none) := by
  refine ⟨fun h => ?_, fun h p => ?_, fun h hall => ?_⟩
  · unfold find_file
    rw [if_pos h]
  · unfold find_file
    rw [if_neg (by simp [h])]
    rw [List.find?_eq_some]
    constructor
    · rintro ⟨hp, l1, l2, heq, hrest⟩
      exact ⟨hp, l1, l2, heq, fun q hq => by simpa using hrest q hq⟩
    · rintro ⟨hp, l1, l2, heq, hrest⟩
      exact ⟨hp, l1, l2, heq, fun q hq => by simp [hrest q hq]⟩
  · unfold find_file
    rw [if_neg (by simp [h])]
    exact List.find?_eq_none.mpr (fun x hx => by simp [hall x hx])

theorem C3_find_file_resolution_w :
    find_file fsDemo ["r"] "list_train.txt" = some ["r", "list_train.txt"] ∧
      find_file fsDemo ["r"] "zzz.jpg" = none :=
  ⟨(C3_find_file_resolution fsDemo ["r"] "list_train.txt").1 (by decide),
   (C3_find_file_resolution fsDemo ["r"] "zzz.jpg").2.2 (by decide) (by decide)⟩

/-- C4: the return code of `process` is 0 exactly when the dataset root
exists — covering the nothing-to-do case, dry-run and execute mode, and
however many referenced filenames fail to resolve — and 1 exactly when
the root does not exist. -/
theorem C4_return_codes (fs : FS) (root : FPath) (ex : Bool) :
    (process fs root ex).rc = if fs.pathExists root then 0 else 1 :=
  process_rc_eq fs root ex

/-- C5 (counterexample): the line `"a.jpg\t0"` is non-blank and survives
stripping unchanged, its first whitespace-delimited token is `"a.jpg"`,
but the converter uses the whole line `"a.jpg\t0"` as the filename,
because the code splits on the space character only, not on general
whitespace. -/
theorem C5_whitespace_token_cex :
    trimList "a.jpg\t0".data = "a.jpg\t0".data ∧
    "a.jpg\t0".data ≠ [] ∧
    firstTokenSpec "a.jpg\t0".data = "a.jpg".data ∧
    lineFilename "a.jpg\t0".data = "a.jpg\t0".data ∧
    lineFilename "a.jpg\t0".data ≠ firstTokenSpec "a.jpg\t0".data ∧
    listNames "a.jpg\t0".data = ["a.jpg\t0"] := by decide

/-- C5 (amended): for every non-blank line of a list file the filename
used by the converter is the first token delimited by the space character
`' '` — it contains no space, it is the prefix of the line up to the first
space, and everything from the first space on is ignored — and blank
lines are stripped before processing. -/
theorem C5_first_space_token (content : List Char) :
    ∀ l, l ∈ stripLines content →
      l ≠ [] ∧
      (∀ c, c ∈ lineFilename l → c ≠ ' ') ∧
      lineFilename l ++ l.dropWhile (fun c => c ≠ ' ') = l ∧
      (∀ c, (l.dropWhile (fun c => c ≠ ' ')).head? = some c → c = ' ') := by
  intro l hl
  have hne : l ≠ [] := by
    have := (List.mem_filter.mp hl).2
    simpa using this
  refine ⟨hne, fun c hc => ?_, ?_, fun c hc => ?_⟩
  · have := List.mem_takeWhile_imp hc
    simpa using this
  · exact List.takeWhile_append_dropWhile _ l
  · have h3 := List.head?_dropWhile_not (fun c => decide (c ≠ ' ')) l
    rw [hc] at h3
    simpa using h3

theorem C5_first_space_token_w :
    "img001.jpg 0 5".data ≠ [] ∧
    (∀ c, c ∈ lineFilename "img001.jpg 0 5".data → c ≠ ' ') ∧
    lineFilename "img001.jpg 0 5".data ++
      "img001.jpg 0 5".data.dropWhile (fun c => c ≠ ' ') =
      "img001.jpg 0 5".data ∧
    (∀ c, ("img001.jpg 0 5".data.dropWhile (fun c => c ≠ ' ')).head? = some c →
      c = ' ') :=
  C5_first_space_token "img001.jpg 0 5\nimg002.jpg 1 3".data
    "img001.jpg 0 5".data (by decide)

/-- C6: plan invariant — every `(source, destination)` pair in the plan
stems from a referenced filename whose resolution succeeded, the recorded
source being exactly the resolved path; no unlocated source is recorded. -/
theorem C6_plan_invariant (fs : FS) (root : FPath) :
    ∀ s d, (s, d) ∈ (buildPlan fs root).2.1 →
      ∃ e, e ∈ referenced fs root ∧ find_file fs root e.1 = some s := by
  intro s d h
  obtain ⟨e, he, hp⟩ := (mem_buildPlan_actions fs root (s, d)).mp h
  exact ⟨e, he, ((planOf_eq_some fs root e s d).mp hp).1⟩

theorem C6_plan_invariant_w :
    ∃ e, e ∈ referenced fsDemo ["r"] ∧
      find_file fsDemo ["r"] e.1 = some ["r", "sub", "a.jpg"] :=
  C6_plan_invariant fsDemo ["r"] ["r", "sub", "a.jpg"]
    ["r", "bounding_box_train", "a.jpg"] (by decide)

/-- C7: every planned action's destination is
`root/<dest_subdir>/<basename(filename)>`, where `<dest_subdir>` is the
category bucket paired with the filename's list file; directory components
of the original filename are discarded. -/
theorem C7_destination_shape (fs : FS) (root : FPath) :
    ∀ s d, (s, d) ∈ (buildPlan fs root).2.1 →
      ∃ e, e ∈ referenced fs root ∧ find_file fs root e.1 = some s ∧
        d = root ++ [e.2, basenameOf e.1] := by
  intro s d h
  obtain ⟨e, he, hp⟩ := (mem_buildPlan_actions fs root (s, d)).mp h
  obtain ⟨h1, h2⟩ := (planOf_eq_some fs root e s d).mp hp
  exact ⟨e, he, h1, h2⟩

theorem C7_destination_shape_w :
    ∃ e, e ∈ referenced fsPre ["r"] ∧
      find_file fsPre ["r"] e.1 = some ["r", "sub", "a.jpg"] ∧
      ["r", "bounding_box_train", "a.jpg"] = ["r"] ++ [e.2, basenameOf e.1] :=
  C7_destination_shape fsPre ["r"] ["r", "sub", "a.jpg"]
    ["r", "bounding_box_train", "a.jpg"] (by decide)

/-- C8 (counterexample): in `fsDup` the single filename `a.jpg` is absent
under the root and is referenced twice by `list_train.txt`; the
missing-count of the run is 2, not 1 — the count is per reference, not
per distinct filename. -/
theorem C8_missing_once_cex :
    referenced fsDup ["r"] =
      [("a.jpg", "bounding_box_train"), ("a.jpg", "bounding_box_train")] ∧
    find_file fsDup ["r"] "a.jpg" = none ∧
    (buildPlan fsDup ["r"]).1 = 2 := by decide

/-- C8 (amended): every unresolvable reference is counted exactly once —
the missing-count equals the number of referenced `(filename, bucket)`
occurrences whose resolution fails (so a filename referenced twice counts
twice) — each one is reported individually, the resolvable subset is
still fully planned, and unresolvable filenames never make the return
code nonzero. -/
theorem C8_missing_per_reference (fs : FS) (root : FPath) :
    (buildPlan fs root).1 =
      ((referenced fs root).filter
        (fun e => (find_file fs root e.1).isNone)).length ∧
    (buildPlan fs root).2.1 =
      (referenced fs root).filterMap (planOf fs root) ∧
    (∀ e, e ∈ referenced fs root → find_file fs root e.1 = none →
      ("  MISSING: " ++ e.1) ∈ (buildPlan fs root).2.2) ∧
    (∀ ex, fs.pathExists root = true → (process fs root ex).rc = 0) := by
  refine ⟨?_, ?_, fun e he hn => ?_, fun ex h => ?_⟩
  · rw [buildPlan_eq, List.countP_eq_length_filter]
  · rw [buildPlan_eq]
  · rw [buildPlan_eq]
    exact missing_msg_mem_logsOf fs root LIST_MAP e he (by simp [hn])
  · rw [process_rc_eq, if_pos h]

theorem C8_missing_per_reference_w :
    ("  MISSING: " ++ "a.jpg") ∈ (buildPlan fsDup ["r"]).2.2 ∧
      (process fsDup ["r"] true).rc = 0 :=
  ⟨(C8_missing_per_reference fsDup ["r"]).2.2.1 ("a.jpg", "bounding_box_train")
     (by decide) (by decide),
   (C8_missing_per_reference fsDup ["r"]).2.2.2 true (by decide)⟩

/-- C9: the converter handles exactly the four recognized list files in
the fixed order train, val, query, gallery; an absent list file yields a
skip message in the log, and the plan is still the one obtained from all
referenced filenames of the remaining (present) lists. -/
theorem C9_fixed_lists_skip :
    LIST_MAP = [("list_train.txt", "bounding_box_train"),
      ("list_val.txt", "bounding_box_train"),
      ("list_query.txt", "query"),
      ("list_gallery.txt", "bounding_box_test")] ∧
    ∀ (fs : FS) (root : FPath) (e : String × String), e ∈ LIST_MAP →
      fs.pathExists (root ++ [e.1]) = false →
      ("  Skipping missing list: " ++ showPath (root ++ [e.1]))
        ∈ (buildPlan fs root).2.2 ∧
      (buildPlan fs root).2.1 =
        (referenced fs root).filterMap (planOf fs root) := by
  refine ⟨rfl, fun fs root e he hex => ⟨?_, ?_⟩⟩
  · rw [buildPlan_eq]
    exact skip_msg_mem_logsOf fs root LIST_MAP e he hex
  · rw [buildPlan_eq]

theorem C9_fixed_lists_skip_w :
    ("  Skipping missing list: " ++ showPath (["r"] ++ ["list_val.txt"]))
      ∈ (buildPlan fsDemo ["r"]).2.2 ∧
    (buildPlan fsDemo ["r"]).2.1 =
      (referenced fsDemo ["r"]).filterMap (planOf fsDemo ["r"]) :=
  C9_fixed_lists_skip.2 fsDemo ["r"] ("list_val.txt", "bounding_box_train")
    (by decide) (by decide)

/-- C10: the two branches of `find_file` are asymmetric about file kind:
whenever the direct lookup misses, the recursive branch returns only
regular files; but the direct branch returns `root / fname` whenever it
exists, even as a directory — as witnessed by `fsDirSrc`, where the
directory `r/d` is resolved and recorded as a copy source in the plan. -/
theorem C10_kind_asymmetry :
    (∀ (fs : FS) (root : FPath) (fname : String) (p : FPath),
      fs.pathExists (root ++ splitPath fname) = false →
      find_file fs root fname = some p → fs.isFile p = true) ∧
    (find_file fsDirSrc ["r"] "d" = some ["r", "d"] ∧
     fsDirSrc.pathExists ["r", "d"] = true ∧
     fsDirSrc.isFile ["r", "d"] = false ∧
     (["r", "d"], ["r", "bounding_box_train", "d"])
       ∈ (buildPlan fsDirSrc ["r"]).2.1) := by
  refine ⟨fun fs root fname p h hf => ?_, by decide⟩
  unfold find_file at hf
  rw [if_neg (by simp [h])] at hf
  exact List.find?_some hf

theorem C10_kind_asymmetry_w :
    fsDemo.isFile ["r", "sub", "a.jpg"] = true :=
  C10_kind_asymmetry.1 fsDemo ["r"] "a.jpg" ["r", "sub", "a.jpg"]
    (by decide) (by decide)

end Msmt
